import Mathlib

/-!
Verification of the question-bank parser of `millionaire_game.py`.

The program's only parsing component is `parse_question_bank`, which uses two
Python regular expressions (`topic_pattern`, `question_pattern`, both with
`re.DOTALL`) plus `re.sub(r"\s*\(.*?الإجابة.*?\)", "", ...)` and `str.strip()`.

We embed the parser shallowly over `List Char`:
* a small backtracking regex engine `mrun` that is faithful to Python's
  leftmost-match backtracking semantics for exactly the constructs the three
  patterns use (literals, greedy `\s*` and `\d+` with backtracking, lazy `.*?`
  with and without DOTALL, a two-alternative zero-width lookahead, `\Z`);
* `pyFindall` mirroring `re.findall` (scan left to right, non-overlapping,
  restart after each match, advance one character after an empty match);
* `pySub` mirroring `re.sub` (delete every non-overlapping leftmost match);
* `pyStrip` mirroring `str.strip()`;
* `parse_question_bank`, `processTopic`, `processQuestion`, `optionLoop`
  mirroring the loops of the Python function line by line.

The engine is structurally recursive on an explicit fuel argument so that all
definitions compute by kernel reduction; the fuel bounds the *depth* of the
backtracking call stack, which for the fixed patterns used here is at most a
small multiple of the subject length, far below the `(length + 300)^2` supplied.
-/

/-- Strings are modelled as lists of characters. -/
abbrev Str := List Char

/-- Python's `\s` (and `str.strip()`) character class for `str` patterns:
ASCII whitespace, the C1 separators, and the Unicode space separators. -/
def pySpace (c : Char) : Bool :=
  let n := c.toNat
  n == 32 || n == 9 || n == 10 || n == 11 || n == 12 || n == 13 ||
  (28 ≤ n && n ≤ 31) || n == 133 || n == 160 || n == 5760 ||
  (8192 ≤ n && n ≤ 8202) || n == 8232 || n == 8233 || n == 8239 ||
  n == 8287 || n == 12288

/-- Python's `\d` for `str` patterns is the Unicode category Nd; we include the
ASCII digits together with the Arabic-Indic and Extended Arabic-Indic digits,
the only decimal-digit scripts that can occur in this program's data. -/
def pyDigit (c : Char) : Bool :=
  let n := c.toNat
  (48 ≤ n && n ≤ 57) || (1632 ≤ n && n ≤ 1641) || (1776 ≤ n && n ≤ 1785)

/-- Length of the maximal whitespace run at the front (for greedy `\s*`). -/
def wsRun (s : Str) : Nat := (s.takeWhile pySpace).length

/-- Length of the maximal digit run at the front (for greedy `\d+`). -/
def digRun (s : Str) : Nat := (s.takeWhile pyDigit).length

/-- Python `needle in haystack` on strings: some suffix starts with `pat`. -/
def containsSub (pat : Str) : Str → Bool
  | [] => pat.isEmpty
  | s@(_ :: s') => pat.isPrefixOf s || containsSub pat s'

/-- Python `str.strip()`: drop leading and trailing whitespace. -/
def pyStrip (s : Str) : Str :=
  ((s.dropWhile pySpace).reverse.dropWhile pySpace).reverse

/-- One element of a compiled regular expression, covering exactly the
constructs appearing in the three patterns of `parse_question_bank`.
`wsTry`, `digTry` and `lazyAcc` are the running states of the backtracking
search for `\s*`, `(\d+)`/`\d+` and `(.*?)`/`.*?` respectively. -/
inductive RItem : Type where
  | lit (cs : List Char)
  | wsStar
  | wsTry (k : Nat)
  | digits (cap : Bool)
  | digTry (cap : Bool) (k : Nat)
  | lazy (cap : Bool) (dotall : Bool)
  | lazyAcc (cap : Bool) (dotall : Bool) (rev : List Char)
  | look2 (a b : List RItem)
  | eos

/-- Backtracking matcher, anchored at the start of `s`.  Returns the list of
captured groups (in order) and the number of characters consumed, or `none`
if the pattern does not match at this position.  Faithful to Python:
greedy pieces try the longest take first and give back on failure, lazy
pieces try the shortest take first and extend on failure, `.` does not match
a newline unless DOTALL, the lookahead is zero-width and tries its first
alternative first.  `fuel` bounds the depth of the search stack only. -/
def mrun : Nat → List RItem → Str → List Str → Option (List Str × Nat)
  | 0, _, _, _ => none
  | _+1, [], _, acc => some (acc.reverse, 0)
  | f+1, .lit cs :: r, s, acc =>
      if cs.isPrefixOf s then
        (mrun f r (s.drop cs.length) acc).map (fun gn => (gn.1, cs.length + gn.2))
      else none
  | f+1, .wsStar :: r, s, acc => mrun f (.wsTry (wsRun s) :: r) s acc
  | f+1, .wsTry k :: r, s, acc =>
      match mrun f r (s.drop k) acc with
      | some gn => some (gn.1, k + gn.2)
      | none =>
        match k with
        | 0 => none
        | k'+1 => mrun f (.wsTry k' :: r) s acc
  | f+1, .digits cap :: r, s, acc =>
      match digRun s with
      | 0 => none
      | n+1 => mrun f (.digTry cap (n+1) :: r) s acc
  | f+1, .digTry cap k :: r, s, acc =>
      match mrun f r (s.drop k) (if cap then s.take k :: acc else acc) with
      | some gn => some (gn.1, k + gn.2)
      | none =>
        match k with
        | 0 => none
        | 1 => none
        | k'+2 => mrun f (.digTry cap (k'+1) :: r) s acc
  | f+1, .lazy cap dotall :: r, s, acc => mrun f (.lazyAcc cap dotall [] :: r) s acc
  | f+1, .lazyAcc cap dotall rev :: r, s, acc =>
      match mrun f r s (if cap then rev.reverse :: acc else acc) with
      | some gn => some gn
      | none =>
        match s with
        | [] => none
        | ch :: s' =>
          if dotall || ch != '\n' then
            (mrun f (.lazyAcc cap dotall (ch :: rev) :: r) s' acc).map
              (fun gn => (gn.1, gn.2 + 1))
          else none
  | f+1, .look2 a b :: r, s, acc =>
      if (mrun f a s []).isSome || (mrun f b s []).isSome then mrun f r s acc
      else none
  | f+1, .eos :: r, s, acc => if s.isEmpty then mrun f r s acc else none

/-- Generous fuel: the search-stack depth of `mrun` on the fixed patterns
below is linear in the subject length with a small constant. -/
def mfuel (s : Str) : Nat := (s.length + 300) * (s.length + 300)

/-- `re.findall` scan with the match fuel `F` fixed; `p` is the absolute
position of the current suffix and `skip` the number of characters still to
be skipped because the previous match consumed them.  After a match of `n+1`
characters the scan resumes at its end; after an empty match it records the
match and advances one character, as Python does. -/
def findFromAux (F : Nat) (its : List RItem) : Str → Nat → Nat → List (Nat × List Str)
  | [], p, skip =>
    if skip = 0 then
      match mrun F its [] [] with
      | some (gs, _) => [(p, gs)]
      | none => []
    else []
  | _ :: s', p, skip+1 => findFromAux F its s' (p+1) skip
  | s@(_ :: s'), p, 0 =>
    match mrun F its s [] with
    | some (gs, 0) => (p, gs) :: findFromAux F its s' (p+1) 0
    | some (gs, n+1) => (p, gs) :: findFromAux F its s' (p+1) n
    | none => findFromAux F its s' (p+1) 0

/-- `pattern.findall(s)`, returning each match's start position with its
tuple of captured groups. -/
def pyFindall (its : List RItem) (s : Str) : List (Nat × List Str) :=
  findFromAux (mfuel s) its s 0 0

/-- The correct-answer marker substring `الإجابة الصحيحة`. -/
def markerStr : Str := ("الإجابة الصحيحة").data

/-- The topic header literal `**عنوان الموضوع`. -/
def hdrLit : Str := ("**عنوان الموضوع").data

/-- Compiled `topic_pattern`:
`\*\*عنوان الموضوع.*?:\s*(.*?)\*\*(.*?)(?=\*\*عنوان الموضوع|\Z)` with DOTALL. -/
def topicItems : List RItem :=
  [.lit hdrLit, .lazy false true, .lit ((":").data), .wsStar,
   .lazy true true, .lit (("**").data),
   .lazy true true, .look2 [.lit hdrLit] [.eos]]

/-- Compiled `question_pattern`:
`(\d+)\.\s*السؤال:\s*(.*?)\n\s*أ\)\s*(.*?)\n\s*ب\)\s*(.*?)\n\s*ج\)\s*(.*?)\n\s*د\)\s*(.*?)(?=\n\s*\d+\.|\Z)`
with DOTALL. -/
def questionItems : List RItem :=
  [.digits true, .lit ((".").data), .wsStar, .lit (("السؤال:").data), .wsStar,
   .lazy true true,
   .lit (("\n").data), .wsStar, .lit (("أ)").data), .wsStar, .lazy true true,
   .lit (("\n").data), .wsStar, .lit (("ب)").data), .wsStar, .lazy true true,
   .lit (("\n").data), .wsStar, .lit (("ج)").data), .wsStar, .lazy true true,
   .lit (("\n").data), .wsStar, .lit (("د)").data), .wsStar, .lazy true true,
   .look2 [.lit (("\n").data), .wsStar, .digits false, .lit ((".").data)] [.eos]]

/-- Compiled cleanup pattern of `re.sub`: `\s*\(.*?الإجابة.*?\)` (no DOTALL). -/
def subItems : List RItem :=
  [.wsStar, .lit (("(").data), .lazy false false, .lit (("الإجابة").data),
   .lazy false false, .lit ((")").data)]

/-- `re.sub(subItems, "", s)` scan: delete each leftmost non-overlapping
match; `skip` counts characters of the current match still to be deleted. -/
def pySubAux : Str → Nat → Str
  | [], _ => []
  | _ :: s', skip+1 => pySubAux s' skip
  | s@(c :: s'), 0 =>
    match mrun (mfuel s) subItems s [] with
    | some (_, 0) => c :: pySubAux s' 0
    | some (_, n+1) => pySubAux s' n
    | none => c :: pySubAux s' 0

/-- `re.sub(r"\s*\(.*?الإجابة.*?\)", "", s)`. -/
def pySub (s : Str) : Str := pySubAux s 0

/-- `"الإجابة الصحيحة" in s`. -/
def hasMarker (s : Str) : Bool := containsSub markerStr s

/-- A parsed question: prompt, the four cleaned options, and the recorded
index of the correct option (the dictionary built at lines 95-101). -/
structure Question where
  question : Str
  options : List Str
  correct_index : Nat
deriving DecidableEq, Repr

/-- A parsed topic: cleaned name and its parsed questions (line 103). -/
structure Topic where
  topic : Str
  questions : List Question
deriving DecidableEq, Repr

/-- The `for idx, option in enumerate(raw_options)` loop (lines 87-92):
strip each option, and when it contains the marker, remove the bracketed
tag, strip again, and overwrite `correct_index` with the current index. -/
def optionLoop : List Str → Nat → List Str → Option Nat → (List Str × Option Nat)
  | [], _, accOpts, accIdx => (accOpts.reverse, accIdx)
  | o :: os, idx, accOpts, accIdx =>
    let oc := pyStrip o
    if hasMarker oc then
      optionLoop os (idx+1) (pyStrip (pySub oc) :: accOpts) (some idx)
    else
      optionLoop os (idx+1) (oc :: accOpts) accIdx

/-- Processing of one `question_pattern` match (lines 83-101).  The pattern
has six groups, so `re.findall` always hands the loop a 6-tuple; the
catch-all branch is unreachable and present only for totality. -/
def processQuestion : List Str → Option Question
  | [_num, qt, a, b, c, d] =>
    match optionLoop [a, b, c, d] 0 [] none with
    | (opts, some i) => some ⟨pyStrip qt, opts, i⟩
    | (_, none) => none
  | _ => none

/-- Processing of one `topic_pattern` match (lines 80-103).  The pattern has
two groups; the catch-all branch is unreachable and present for totality. -/
def processTopic : List Str → Option Topic
  | [name, content] =>
    let qs := ((pyFindall questionItems content).map Prod.snd).filterMap processQuestion
    if qs.isEmpty then none else some ⟨pyStrip name, qs⟩
  | _ => none

/-- `parse_question_bank` (lines 68-104): run `topic_pattern.findall`, build
each topic from its body, and keep only topics with a nonempty question
list.  Appending inside the Python `for` loop is `filterMap` in order. -/
def parse_question_bank (text : Str) : List Topic :=
  ((pyFindall topicItems text).map Prod.snd).filterMap processTopic

/-- Topics paired with the start position of their header match, used to
state the ordering invariant. -/
def parseTopicsPos (text : Str) : List (Nat × Topic) :=
  (pyFindall topicItems text).filterMap
    (fun pg => (processTopic pg.2).map (fun t => (pg.1, t)))

/-- Questions of one topic body paired with the start position of their
question match. -/
def parseQuestionsPos (content : Str) : List (Nat × Question) :=
  (pyFindall questionItems content).filterMap
    (fun pg => (processQuestion pg.2).map (fun q => (pg.1, q)))

/-- The sample question bank embedded in the program (lines 11-37). -/
def QUESTION_BANK : String :=
"// The following block contains all the topics and questions for the game.
// Parse this data carefully.

[--- ألصق هنا كامل المحتوى النصي من ملف الـ PDF الخاص بك. تأكد من أن كل موضوع له عنوان واضح والأسئلة مرقمة تحته مع تحديد الإجابة الصحيحة. ---]

**مثال على التنسيق الذي يجب أن يكون عليه المحتوى الملصق:**

**عنوان الموضوع الأول: الحركة الموجية**
1. السؤال: ما هي الظاهرة التي تحدث عندما تمر موجة صوتية من الهواء إلى الماء؟
    أ) انعكاس
    ب) انكسار (الإجابة الصحيحة)
    ج) حيود
    د) تداخل

2. السؤال: في الحركة التوافقية البسيطة، تكون سرعة الجسم أقصى ما يمكن عند...
    أ) موضع الاتزان (الإجابة الصحيحة)
    ب) أقصى إزاحة
    ج) منتصف المسافة بين الاتزان وأقصى إزاحة
    د) أي نقطة

**عنوان الموضوع الثاني: الضوء**
1. السؤال: لماذا يبدو حمام السباحة أقل عمقًا مما هو عليه في الواقع؟
    أ) بسبب انعكاس الضوء
    ب) بسبب انكسار الضوء (الإجابة الصحيحة)
    ج) بسبب حيود الضوء
    د) بسبب تشتت الضوء
"

def markerParen : Str := (" (الإجابة الصحيحة)").data

def cexTwoMarkers : Str :=
  ("**عنوان الموضوع: س**\n1. السؤال: كم؟\n أ) واحد (الإجابة الصحيحة)\n ب) اثنان (الإجابة الصحيحة)\n ج) ثلاثة\n د) أربعة\n").data

def cexEmptyName : Str :=
  ("**عنوان الموضوع:**\n1. السؤال: س؟\n أ) نعم (الإجابة الصحيحة)\n ب) لا\n ج) ربما\n د) كلا\n").data

def cexEmptyPrompt : Str :=
  ("**عنوان الموضوع: س**\n1. السؤال:\n أ) واحد (الإجابة الصحيحة)\n ب) اثنان\n ج) ثلاثة\n د) أربعة\n").data

/-! ### Basic facts about `containsSub` and `pyStrip` -/

theorem isPrefixOf_exists : ∀ (p s : Str), p.isPrefixOf s = true ↔ ∃ t, s = p ++ t := by
  intro p
  induction p with
  | nil => intro s; simp [List.isPrefixOf]
  | cons a as ih =>
    intro s
    cases s with
    | nil => simp [List.isPrefixOf]
    | cons b bs =>
      simp only [List.isPrefixOf, Bool.and_eq_true, beq_iff_eq, ih bs, List.cons_append,
        List.cons.injEq]
      constructor
      · rintro ⟨rfl, t, rfl⟩; exact ⟨t, rfl, rfl⟩
      · rintro ⟨t, rfl, rfl⟩; exact ⟨rfl, t, rfl⟩

theorem containsSub_exists : ∀ (pat s : Str),
    containsSub pat s = true ↔ ∃ u v, s = u ++ pat ++ v := by
  intro pat s
  induction s with
  | nil =>
    simp only [containsSub, List.isEmpty_iff]
    constructor
    · rintro rfl; exact ⟨[], [], rfl⟩
    · rintro ⟨u, v, h⟩
      rcases List.append_eq_nil.mp h.symm with ⟨h1, -⟩
      exact (List.append_eq_nil.mp h1).2
  | cons c s' ih =>
    simp only [containsSub, Bool.or_eq_true, isPrefixOf_exists, ih]
    constructor
    · rintro (⟨t, ht⟩ | ⟨u, v, rfl⟩)
      · exact ⟨[], t, by simpa using ht⟩
      · exact ⟨c :: u, v, by simp⟩
    · rintro ⟨u, v, h⟩
      cases u with
      | nil => exact Or.inl ⟨v, by simpa using h⟩
      | cons x u' =>
        right
        rcases List.cons_eq_cons.mp h with ⟨-, h2⟩
        exact ⟨u', v, h2⟩

theorem containsSub_append (pat m u v : Str) (h : containsSub pat m = true) :
    containsSub pat (u ++ m ++ v) = true := by
  rcases (containsSub_exists pat m).mp h with ⟨x, y, rfl⟩
  exact (containsSub_exists pat _).mpr ⟨u ++ x, y ++ v, by simp⟩

theorem dropWhile_decomp (p : Char → Bool) : ∀ (l : Str), ∃ u, l = u ++ l.dropWhile p := by
  intro l
  induction l with
  | nil => exact ⟨[], rfl⟩
  | cons a l' ih =>
    by_cases hp : p a
    · rcases ih with ⟨u, hu⟩
      exact ⟨a :: u, by simp [List.dropWhile_cons, hp, ← hu]⟩
    · exact ⟨[], by simp [List.dropWhile_cons, hp]⟩

theorem pyStrip_decomp (s : Str) : ∃ u v, s = u ++ pyStrip s ++ v := by
  rcases dropWhile_decomp pySpace s with ⟨u, hu⟩
  rcases dropWhile_decomp pySpace (s.dropWhile pySpace).reverse with ⟨w, hw⟩
  refine ⟨u, w.reverse, ?_⟩
  unfold pyStrip
  calc s = u ++ s.dropWhile pySpace := hu
    _ = u ++ ((s.dropWhile pySpace).reverse).reverse := by rw [List.reverse_reverse]
    _ = u ++ (w ++ ((s.dropWhile pySpace).reverse.dropWhile pySpace)).reverse := by rw [← hw]
    _ = u ++ ((s.dropWhile pySpace).reverse.dropWhile pySpace).reverse ++ w.reverse := by
          rw [List.reverse_append]; simp

theorem hasMarker_pyStrip_false (s : Str) (h : hasMarker s = false) :
    hasMarker (pyStrip s) = false := by
  cases hh : hasMarker (pyStrip s) with
  | false => rfl
  | true =>
    exfalso
    rcases pyStrip_decomp s with ⟨u, v, hs⟩
    have ht : hasMarker s = true := by
      rw [hs]
      exact containsSub_append _ _ _ _ hh
    rw [h] at ht
    exact Bool.noConfusion ht

theorem mem_of_mem_pyStrip (s : Str) (c : Char) (h : c ∈ pyStrip s) : c ∈ s := by
  rcases pyStrip_decomp s with ⟨u, v, hs⟩
  rw [hs]
  simp [h]

theorem head?_dropWhile (p : Char → Bool) : ∀ (l : Str) (c : Char),
    (l.dropWhile p).head? = some c → p c = false := by
  intro l
  induction l with
  | nil => intro c h; simp [List.dropWhile] at h
  | cons a l' ih =>
    intro c h
    cases hp : p a with
    | true =>
      rw [List.dropWhile_cons, if_pos hp] at h
      exact ih c h
    | false =>
      rw [List.dropWhile_cons, if_neg (by simp [hp])] at h
      simp only [List.head?_cons, Option.some.injEq] at h
      rw [← h]
      exact hp

theorem dropWhile_eq_self (p : Char → Bool) (l : Str)
    (h : ∀ c, l.head? = some c → p c = false) : l.dropWhile p = l := by
  cases l with
  | nil => rfl
  | cons a l' =>
    have ha := h a rfl
    simp [List.dropWhile_cons, ha]

theorem dropWhile_length_le (p : Char → Bool) (l : Str) :
    (l.dropWhile p).length ≤ l.length := by
  rcases dropWhile_decomp p l with ⟨u, hu⟩
  conv_rhs => rw [hu]
  simp [List.length_append]

theorem pyStrip_eq_self (s : Str)
    (h1 : ∀ c, s.head? = some c → pySpace c = false)
    (h2 : ∀ c, s.reverse.head? = some c → pySpace c = false) : pyStrip s = s := by
  unfold pyStrip
  rw [dropWhile_eq_self _ _ h1, dropWhile_eq_self _ _ h2, List.reverse_reverse]

theorem dropWhile_eq_self_of_length (p : Char → Bool) (l : Str)
    (h : (l.dropWhile p).length = l.length) : l.dropWhile p = l := by
  rcases dropWhile_decomp p l with ⟨u, hu⟩
  have hlen : l.length = u.length + (l.dropWhile p).length := by
    conv_lhs => rw [hu]
    simp [List.length_append]
  have hu0 : u = [] := List.length_eq_zero.mp (by omega)
  rw [hu0] at hu
  simpa using hu.symm

theorem pyStrip_fix_dropWhile (s : Str) (hs : pyStrip s = s) :
    s.dropWhile pySpace = s := by
  have h1 : (pyStrip s).length = s.length := by rw [hs]
  have h2 : (pyStrip s).length ≤ (s.dropWhile pySpace).length := by
    unfold pyStrip
    calc ((s.dropWhile pySpace).reverse.dropWhile pySpace).reverse.length
        = ((s.dropWhile pySpace).reverse.dropWhile pySpace).length := by
          rw [List.length_reverse]
      _ ≤ (s.dropWhile pySpace).reverse.length := dropWhile_length_le _ _
      _ = (s.dropWhile pySpace).length := by rw [List.length_reverse]
  have h3 : (s.dropWhile pySpace).length ≤ s.length := dropWhile_length_le _ _
  exact dropWhile_eq_self_of_length _ _ (by omega)

theorem pyStrip_fix_rev (s : Str) (hs : pyStrip s = s) :
    s.reverse.dropWhile pySpace = s.reverse := by
  have hdw := pyStrip_fix_dropWhile s hs
  have hh : pyStrip s = (s.reverse.dropWhile pySpace).reverse := by
    unfold pyStrip; rw [hdw]
  rw [hs] at hh
  have := congrArg List.reverse hh
  simpa using this.symm

theorem head_not_of_dropWhile_fix (p : Char → Bool) (l : Str) (h : l.dropWhile p = l) :
    ∀ c, l.head? = some c → p c = false := by
  intro c hc
  cases l with
  | nil => simp at hc
  | cons a l' =>
    simp only [List.head?_cons, Option.some.injEq] at hc
    rw [← hc]
    cases hp : p a with
    | false => rfl
    | true =>
      exfalso
      rw [List.dropWhile_cons, if_pos hp] at h
      have h1 := dropWhile_length_le p l'
      have h2 := congrArg List.length h
      simp at h2
      omega

theorem head?_append_left (x y : Str) (hx : x ≠ []) : (x ++ y).head? = x.head? := by
  cases x with
  | nil => exact absurd rfl hx
  | cons a x' => simp

theorem pyStrip_idem (s : Str) : pyStrip (pyStrip s) = pyStrip s := by
  apply pyStrip_eq_self
  · intro c hc
    rcases dropWhile_decomp pySpace (s.dropWhile pySpace).reverse with ⟨u, hu⟩
    have ha : s.dropWhile pySpace =
        ((s.dropWhile pySpace).reverse.dropWhile pySpace).reverse ++ u.reverse := by
      have := congrArg List.reverse hu
      simpa [List.reverse_append] using this
    have hps : (pyStrip s).head? = some c := hc
    cases hw : ((s.dropWhile pySpace).reverse.dropWhile pySpace).reverse with
    | nil =>
      exfalso
      have : pyStrip s = [] := by unfold pyStrip; exact hw
      rw [this] at hps
      simp at hps
    | cons b w' =>
      have hne : ((s.dropWhile pySpace).reverse.dropWhile pySpace).reverse ≠ [] := by
        rw [hw]; simp
      have hhead : (s.dropWhile pySpace).head? = some c := by
        rw [ha, head?_append_left _ _ hne]
        exact hps
      exact head?_dropWhile pySpace s c hhead
  · intro c hc
    have hrev : (pyStrip s).reverse = (s.dropWhile pySpace).reverse.dropWhile pySpace := by
      unfold pyStrip; rw [List.reverse_reverse]
    rw [hrev] at hc
    exact head?_dropWhile pySpace _ c hc

/-! ### Engine lemmas -/

theorem mrun_zero (its : List RItem) (s : Str) (acc : List Str) :
    mrun 0 its s acc = none := rfl

theorem mrun_wsStar_eq (f : Nat) (r : List RItem) (s : Str) (acc : List Str) :
    mrun (f+1) (.wsStar :: r) s acc = mrun f (.wsTry (wsRun s) :: r) s acc := rfl

theorem mrun_lit_none (f : Nat) (cs : List Char) (r : List RItem) (s : Str) (acc : List Str)
    (h : cs.isPrefixOf s = false) : mrun f (.lit cs :: r) s acc = none := by
  cases f with
  | zero => rfl
  | succ f' => simp [mrun, h]

theorem mrun_wsTry_lit_none : ∀ (f k : Nat) (cs : List Char) (r : List RItem) (s : Str)
    (acc : List Str), (∀ j, j ≤ k → cs.isPrefixOf (s.drop j) = false) →
    mrun f (.wsTry k :: .lit cs :: r) s acc = none := by
  intro f
  induction f with
  | zero => intros; rfl
  | succ f' ih =>
    intro k cs r s acc h
    have hlit : mrun f' (.lit cs :: r) (s.drop k) acc = none :=
      mrun_lit_none f' cs r _ acc (h k le_rfl)
    cases k with
    | zero =>
      rw [List.drop_zero] at hlit
      simp [mrun, hlit]
    | succ k' =>
      have hrec := ih k' cs r s acc (fun j hj => h j (Nat.le_succ_of_le hj))
      simp [mrun, hlit, hrec]

theorem parenL_eq : (("(").data) = ['('] := rfl

theorem no_paren_no_prefixOf (s : Str) (hpar : ('(' : Char) ∉ s) (j : Nat) :
    (("(").data).isPrefixOf (s.drop j) = false := by
  cases hp : (("(").data).isPrefixOf (s.drop j) with
  | false => rfl
  | true =>
    exfalso
    rcases (isPrefixOf_exists _ _).mp hp with ⟨t, ht⟩
    rw [parenL_eq] at ht
    have : ('(' : Char) ∈ s.drop j := by rw [ht]; simp
    exact hpar (List.drop_subset j s this)

theorem parenL_not_prefixOf_drop (u v : Str) (j : Nat) (hj : j < u.length)
    (hu : ('(' : Char) ∉ u) :
    (("(").data).isPrefixOf ((u ++ v).drop j) = false := by
  cases hp : (("(").data).isPrefixOf ((u ++ v).drop j) with
  | false => rfl
  | true =>
    exfalso
    rcases (isPrefixOf_exists _ _).mp hp with ⟨t, ht⟩
    rw [parenL_eq] at ht
    rw [List.drop_append_of_le_length (le_of_lt hj)] at ht
    cases he : u.drop j with
    | nil =>
      have := List.length_drop j u
      rw [he] at this
      simp at this
      omega
    | cons c rest =>
      have hc : c ∈ u := List.drop_subset j u (by rw [he]; simp)
      rw [he] at ht
      simp only [List.cons_append, List.cons.injEq] at ht
      exact hu (ht.1 ▸ hc)

theorem wsRun_cons (a : Char) (l : Str) :
    wsRun (a :: l) = if pySpace a then wsRun l + 1 else 0 := by
  unfold wsRun
  cases hpa : pySpace a <;> simp [List.takeWhile_cons, hpa]

theorem wsRun_append_lt : ∀ (u : Str), u ≠ [] →
    (∀ c, u.reverse.head? = some c → pySpace c = false) →
    ∀ (v : Str), wsRun (u ++ v) < u.length := by
  intro u
  induction u with
  | nil => intro h; exact absurd rfl h
  | cons a u' ih =>
    intro _ hrev v
    cases u' with
    | nil =>
      have ha : pySpace a = false := hrev a (by simp)
      simp [wsRun_cons, ha]
    | cons b u'' =>
      have hrev' : ∀ c, (b :: u'').reverse.head? = some c → pySpace c = false := by
        intro c hc
        apply hrev
        rw [List.reverse_cons, head?_append_left _ _ (by simp)]
        exact hc
      have hlt := ih (by simp) hrev' v
      cases hpa : pySpace a with
      | true =>
        simp only [List.cons_append] at hlt ⊢
        rw [wsRun_cons, if_pos hpa]
        simp only [List.length_cons] at hlt ⊢
        omega
      | false =>
        rw [List.cons_append, wsRun_cons, if_neg (by simp [hpa])]
        simp

theorem mrun_sub_none (f : Nat) (s : Str) (acc : List Str)
    (h : ∀ j, j ≤ wsRun s → (("(").data).isPrefixOf (s.drop j) = false) :
    mrun f subItems s acc = none := by
  cases f with
  | zero => rfl
  | succ f' =>
    rw [show subItems = .wsStar :: (subItems.tail) from rfl, mrun_wsStar_eq]
    exact mrun_wsTry_lit_none f' (wsRun s) _ _ s acc h

theorem mrun_sub_none_of_no_paren (f : Nat) (s : Str) (acc : List Str)
    (hpar : ('(' : Char) ∉ s) : mrun f subItems s acc = none :=
  mrun_sub_none f s acc (fun j _ => no_paren_no_prefixOf s hpar j)

theorem mrun_sub_none_parenfree_head (f : Nat) (u v : Str) (acc : List Str)
    (hne : u ≠ []) (hpar : ('(' : Char) ∉ u)
    (hrev : ∀ c, u.reverse.head? = some c → pySpace c = false) :
    mrun f subItems (u ++ v) acc = none := by
  apply mrun_sub_none
  intro j hj
  have hwlt := wsRun_append_lt u hne hrev v
  exact parenL_not_prefixOf_drop u v j (by omega) hpar

theorem pySubAux_cons_eq (c : Char) (s' : Str) :
    pySubAux (c :: s') 0 =
      match mrun (mfuel (c :: s')) subItems (c :: s') [] with
      | some (_, 0) => c :: pySubAux s' 0
      | some (_, n+1) => pySubAux s' n
      | none => c :: pySubAux s' 0 := rfl

theorem pySubAux_id : ∀ (s : Str), ('(' : Char) ∉ s → pySubAux s 0 = s := by
  intro s
  induction s with
  | nil => intro _; rfl
  | cons c s' ih =>
    intro h
    have hm : mrun (mfuel (c :: s')) subItems (c :: s') [] = none :=
      mrun_sub_none_of_no_paren _ _ _ h
    rw [pySubAux_cons_eq, hm]
    show c :: pySubAux s' 0 = c :: s'
    exact congrArg (c :: ·) (ih (fun hc => h (List.mem_cons_of_mem c hc)))

theorem pySubAux_markerParen : pySubAux markerParen 0 = [] := by decide

theorem pySubAux_strip_tag : ∀ (u : Str), ('(' : Char) ∉ u →
    (∀ c, u.reverse.head? = some c → pySpace c = false) →
    pySubAux (u ++ markerParen) 0 = u := by
  intro u
  induction u with
  | nil => intro _ _; simpa using pySubAux_markerParen
  | cons a u' ih =>
    intro hpar hrev
    have hm : mrun (mfuel ((a :: u') ++ markerParen)) subItems ((a :: u') ++ markerParen) []
        = none :=
      mrun_sub_none_parenfree_head _ _ _ _ (by simp) hpar hrev
    rw [List.cons_append] at hm ⊢
    rw [pySubAux_cons_eq, hm]
    show a :: pySubAux (u' ++ markerParen) 0 = a :: u'
    refine congrArg (a :: ·) ?_
    cases hu' : u' with
    | nil => simpa using pySubAux_markerParen
    | cons b u'' =>
      subst hu'
      apply ih (fun hc => hpar (List.mem_cons_of_mem a hc))
      intro c hc
      apply hrev
      rw [List.reverse_cons, head?_append_left _ _ (by simp)]
      exact hc

theorem findFromAux_nil (F : Nat) (its : List RItem) (p skip : Nat) :
    findFromAux F its [] p skip =
      if skip = 0 then
        match mrun F its [] [] with
        | some (gs, _) => [(p, gs)]
        | none => []
      else [] := rfl

theorem findFromAux_cons_skip (F : Nat) (its : List RItem) (c : Char) (s' : Str) (p k : Nat) :
    findFromAux F its (c :: s') p (k+1) = findFromAux F its s' (p+1) k := rfl

theorem findFromAux_cons_zero (F : Nat) (its : List RItem) (c : Char) (s' : Str) (p : Nat) :
    findFromAux F its (c :: s') p 0 =
      match mrun F its (c :: s') [] with
      | some (gs, 0) => (p, gs) :: findFromAux F its s' (p+1) 0
      | some (gs, n+1) => (p, gs) :: findFromAux F its s' (p+1) n
      | none => findFromAux F its s' (p+1) 0 := rfl

theorem findFromAux_pos_le : ∀ (s : Str) (F : Nat) (its : List RItem) (p skip q : Nat),
    q ∈ (findFromAux F its s p skip).map Prod.fst → p ≤ q := by
  intro s
  induction s with
  | nil =>
    intro F its p skip q hq
    rw [findFromAux_nil] at hq
    by_cases hskip : skip = 0
    · rw [if_pos hskip] at hq
      cases hm : mrun F its [] [] with
      | none => rw [hm] at hq; simp at hq
      | some gn =>
        obtain ⟨gs, n⟩ := gn
        rw [hm] at hq
        simp at hq
        omega
    · rw [if_neg hskip] at hq
      simp at hq
  | cons c s' ih =>
    intro F its p skip q hq
    cases skip with
    | succ k =>
      rw [findFromAux_cons_skip] at hq
      exact Nat.le_of_succ_le (ih F its (p+1) k q hq)
    | zero =>
      rw [findFromAux_cons_zero] at hq
      cases hm : mrun F its (c :: s') [] with
      | none =>
        rw [hm] at hq
        exact Nat.le_of_succ_le (ih F its (p+1) 0 q hq)
      | some gn =>
        obtain ⟨gs, n⟩ := gn
        cases n with
        | zero =>
          rw [hm] at hq
          simp only [List.map_cons, List.mem_cons] at hq
          rcases hq with rfl | hq
          · exact le_rfl
          · exact Nat.le_of_succ_le (ih F its (p+1) 0 q hq)
        | succ n' =>
          rw [hm] at hq
          simp only [List.map_cons, List.mem_cons] at hq
          rcases hq with rfl | hq
          · exact le_rfl
          · exact Nat.le_of_succ_le (ih F its (p+1) n' q hq)

theorem findFromAux_pos_sorted : ∀ (s : Str) (F : Nat) (its : List RItem) (p skip : Nat),
    ((findFromAux F its s p skip).map Prod.fst).Pairwise (· < ·) := by
  intro s
  induction s with
  | nil =>
    intro F its p skip
    rw [findFromAux_nil]
    by_cases hskip : skip = 0
    · rw [if_pos hskip]
      cases hm : mrun F its [] [] with
      | none => simp
      | some gn => obtain ⟨gs, n⟩ := gn; simp
    · rw [if_neg hskip]; simp
  | cons c s' ih =>
    intro F its p skip
    cases skip with
    | succ k =>
      rw [findFromAux_cons_skip]
      exact ih F its (p+1) k
    | zero =>
      rw [findFromAux_cons_zero]
      cases hm : mrun F its (c :: s') [] with
      | none => exact ih F its (p+1) 0
      | some gn =>
        obtain ⟨gs, n⟩ := gn
        cases n with
        | zero =>
          simp only [List.map_cons, List.pairwise_cons]
          refine ⟨?_, ih F its (p+1) 0⟩
          intro q hq
          exact Nat.lt_of_succ_le (findFromAux_pos_le s' F its (p+1) 0 q hq)
        | succ n' =>
          simp only [List.map_cons, List.pairwise_cons]
          refine ⟨?_, ih F its (p+1) n'⟩
          intro q hq
          exact Nat.lt_of_succ_le (findFromAux_pos_le s' F its (p+1) n' q hq)

theorem filterMap_tag_snd {α : Type} (f : List Str → Option α) :
    ∀ (l : List (Nat × List Str)),
    (l.filterMap (fun pg => (f pg.2).map (fun t => (pg.1, t)))).map Prod.snd =
      (l.map Prod.snd).filterMap f := by
  intro l
  induction l with
  | nil => rfl
  | cons pg l' ih =>
    cases hf : f pg.2 with
    | none => simp [List.filterMap_cons, hf, ih]
    | some t => simp [List.filterMap_cons, hf, ih]

theorem filterMap_tag_fst_sublist {α : Type} (f : List Str → Option α) :
    ∀ (l : List (Nat × List Str)),
    ((l.filterMap (fun pg => (f pg.2).map (fun t => (pg.1, t)))).map Prod.fst).Sublist
      (l.map Prod.fst) := by
  intro l
  induction l with
  | nil => simp
  | cons pg l' ih =>
    cases hf : f pg.2 with
    | none =>
      simp only [List.filterMap_cons, hf, Option.map_none, List.map_cons]
      exact ih.trans (List.sublist_cons_self _ _)
    | some t =>
      simp only [List.filterMap_cons, hf, Option.map_some, List.map_cons]
      exact List.Sublist.cons₂ _ ih

theorem optionLoop_fst_length : ∀ (os : List Str) (i : Nat) (acc : List Str) (x : Option Nat),
    (optionLoop os i acc x).1.length = acc.length + os.length := by
  intro os
  induction os with
  | nil => intro i acc x; simp [optionLoop]
  | cons o os' ih =>
    intro i acc x
    by_cases hm : hasMarker (pyStrip o) = true
    · simp only [optionLoop, hm, if_true]
      rw [ih]
      simp
      omega
    · simp only [optionLoop]
      rw [if_neg hm, ih]
      simp
      omega

theorem optionLoop_idx_lt : ∀ (os : List Str) (i : Nat) (acc : List Str) (x : Option Nat)
    (j : Nat), (∀ j', x = some j' → j' < i) →
    (optionLoop os i acc x).2 = some j → j < i + os.length := by
  intro os
  induction os with
  | nil =>
    intro i acc x j hx hj
    simp only [optionLoop] at hj
    have := hx j hj
    simpa using this
  | cons o os' ih =>
    intro i acc x j hx hj
    by_cases hm : hasMarker (pyStrip o) = true
    · simp only [optionLoop, hm, if_true] at hj
      have := ih (i+1) _ (some i) j (fun j' hj' => by
        injection hj' with h; omega) hj
      simp only [List.length_cons]
      omega
    · simp only [optionLoop] at hj
      rw [if_neg hm] at hj
      have := ih (i+1) _ x j (fun j' hj' => Nat.lt_succ_of_lt (hx j' hj')) hj
      simp only [List.length_cons]
      omega

theorem processTopic_eq (name content : Str) :
    processTopic [name, content] =
      (if (((pyFindall questionItems content).map Prod.snd).filterMap processQuestion).isEmpty
       then none
       else some ⟨pyStrip name,
         ((pyFindall questionItems content).map Prod.snd).filterMap processQuestion⟩) := rfl

theorem processQuestion_eq (num qt a b c d : Str) :
    processQuestion [num, qt, a, b, c, d] =
      (match optionLoop [a, b, c, d] 0 [] none with
       | (opts, some i) => some ⟨pyStrip qt, opts, i⟩
       | (_, none) => none) := rfl

theorem processTopic_shape (gs : List Str) (tp : Topic) (h : processTopic gs = some tp) :
    ∃ name content, gs = [name, content] := by
  cases gs with
  | nil => exact Option.noConfusion h
  | cons g1 t1 =>
    cases t1 with
    | nil => exact Option.noConfusion h
    | cons g2 t2 =>
      cases t2 with
      | nil => exact ⟨g1, g2, rfl⟩
      | cons g3 t3 => exact Option.noConfusion h

theorem processQuestion_shape (gs : List Str) (q : Question) (h : processQuestion gs = some q) :
    ∃ num qt a b c d, gs = [num, qt, a, b, c, d] := by
  cases gs with
  | nil => exact Option.noConfusion h
  | cons g1 t1 =>
  cases t1 with
  | nil => exact Option.noConfusion h
  | cons g2 t2 =>
  cases t2 with
  | nil => exact Option.noConfusion h
  | cons g3 t3 =>
  cases t3 with
  | nil => exact Option.noConfusion h
  | cons g4 t4 =>
  cases t4 with
  | nil => exact Option.noConfusion h
  | cons g5 t5 =>
  cases t5 with
  | nil => exact Option.noConfusion h
  | cons g6 t6 =>
  cases t6 with
  | nil => exact ⟨g1, g2, g3, g4, g5, g6, rfl⟩
  | cons g7 t7 => exact Option.noConfusion h

theorem processQuestion_fields (num qt a b c d : Str) (q : Question)
    (h : processQuestion [num, qt, a, b, c, d] = some q) :
    q.question = pyStrip qt ∧ q.options = (optionLoop [a, b, c, d] 0 [] none).1 ∧
    (optionLoop [a, b, c, d] 0 [] none).2 = some q.correct_index := by
  rw [processQuestion_eq] at h
  rcases hol : optionLoop [a, b, c, d] 0 [] none with ⟨opts, oi⟩
  rw [hol] at h
  cases oi with
  | none => exact Option.noConfusion h
  | some i =>
    have h2 : some (⟨pyStrip qt, opts, i⟩ : Question) = some q := h
    have h3 := Option.some.inj h2
    subst h3
    exact ⟨rfl, rfl, rfl⟩

theorem containsSub_cons_false (pat : Str) (c : Char) (s' : Str)
    (h : containsSub pat (c :: s') = false) :
    pat.isPrefixOf (c :: s') = false ∧ containsSub pat s' = false := by
  have h' := h
  simp only [containsSub] at h'
  exact ⟨Bool.or_eq_false_iff.mp h' |>.1, Bool.or_eq_false_iff.mp h' |>.2⟩

theorem findFromAux_topic_none : ∀ (s : Str) (F p skip : Nat),
    containsSub hdrLit s = false → findFromAux F topicItems s p skip = [] := by
  intro s
  induction s with
  | nil =>
    intro F p skip _
    rw [findFromAux_nil]
    by_cases hskip : skip = 0
    · rw [if_pos hskip]
      have hm : mrun F topicItems [] [] = none :=
        mrun_lit_none F hdrLit _ [] [] (by decide)
      rw [hm]
    · rw [if_neg hskip]
  | cons c s' ih =>
    intro F p skip h
    obtain ⟨h1, h2⟩ := containsSub_cons_false _ _ _ h
    cases skip with
    | succ k =>
      rw [findFromAux_cons_skip]
      exact ih F (p+1) k h2
    | zero =>
      rw [findFromAux_cons_zero]
      have hm : mrun F topicItems (c :: s') [] = none :=
        mrun_lit_none F hdrLit _ (c :: s') [] h1
      rw [hm]
      exact ih F (p+1) 0 h2

/-- C9: for every input string that contains no occurrence of the topic
header marker `**عنوان الموضوع`, `parse_question_bank` returns the empty
list of topics. -/
theorem parse_no_header_empty (text : Str) (h : containsSub hdrLit text = false) :
    parse_question_bank text = [] := by
  unfold parse_question_bank pyFindall
  rw [findFromAux_topic_none text (mfuel text) 0 0 h]
  rfl

theorem parse_no_header_empty_wit :
    containsSub hdrLit (("hello world").data) = false ∧
    parse_question_bank (("hello world").data) = [] :=
  ⟨by decide, parse_no_header_empty (("hello world").data) (by decide)⟩

/-- C8: the parse operation is a total function of the input text: the model
`parse_question_bank` is a total Lean function (all recursion is structural),
so every input string, however malformed, yields a result list — possibly
empty — and no input can reach an error outcome, matching the Python code,
which has no raise/except path in `parse_question_bank`. -/
theorem parse_total (text : Str) : ∃ ts, parse_question_bank text = ts := ⟨_, rfl⟩

/-- C3: a question block none of whose four option lines contains the
correct-answer marker substring is dropped: `processQuestion` returns `none`
for its groups (and `parse_question_bank` builds topic question lists by
`filterMap processQuestion`, so no question from the block is emitted, with
a defaulted index or otherwise). -/
theorem processQuestion_no_marker_none (num qt a b c d : Str)
    (ha : hasMarker a = false) (hb : hasMarker b = false)
    (hc : hasMarker c = false) (hd : hasMarker d = false) :
    processQuestion [num, qt, a, b, c, d] = none := by
  have ha' := hasMarker_pyStrip_false a ha
  have hb' := hasMarker_pyStrip_false b hb
  have hc' := hasMarker_pyStrip_false c hc
  have hd' := hasMarker_pyStrip_false d hd
  rw [processQuestion_eq]
  simp [optionLoop, ha', hb', hc', hd']

theorem processQuestion_no_marker_none_wit :
    processQuestion [("1").data, ("كم؟").data, ("واحد").data, ("اثنان").data,
      ("ثلاثة").data, ("أربعة").data] = none :=
  processQuestion_no_marker_none _ _ _ _ _ _ (by decide) (by decide) (by decide) (by decide)

/-- C7: a topic whose processed question list is empty is dropped entirely:
every topic in the output of `parse_question_bank` has a nonempty question
list, and `processTopic` returns `none` whenever the question list built
from its body is empty. -/
theorem parse_topic_empty_dropped (text name content : Str) (tp : Topic) :
    (tp ∈ parse_question_bank text → tp.questions ≠ []) ∧
    (((pyFindall questionItems content).map Prod.snd).filterMap processQuestion = [] →
      processTopic [name, content] = none) := by
  constructor
  · intro htp
    unfold parse_question_bank at htp
    rcases List.mem_filterMap.mp htp with ⟨gs, -, hgs⟩
    rcases processTopic_shape gs tp hgs with ⟨nm, ct, rfl⟩
    rw [processTopic_eq] at hgs
    by_cases he : (((pyFindall questionItems ct).map Prod.snd).filterMap processQuestion).isEmpty
    · rw [if_pos he] at hgs
      exact Option.noConfusion hgs
    · rw [if_neg he] at hgs
      have h2 := Option.some.inj hgs
      subst h2
      simpa [List.isEmpty_iff] using he
  · intro h0
    rw [processTopic_eq, h0]
    simp

set_option maxRecDepth 40000 in
theorem parse_topic_empty_dropped_wit :
    ((⟨("س").data, [⟨("كم؟").data,
        [("واحد").data, ("اثنان").data, ("ثلاثة").data, ("أربعة").data], 1⟩]⟩ : Topic).questions
      ≠ []) ∧
    processTopic [("س").data, ("نص").data] = none :=
  ⟨(parse_topic_empty_dropped cexTwoMarkers (("س").data) (("نص").data) _).1 (by decide),
   (parse_topic_empty_dropped cexTwoMarkers (("س").data) (("نص").data)
     ⟨("س").data, []⟩).2 (by decide)⟩

/-- C1 (amended): when at least one option of a question block carries the
correct-answer marker, the recorded `correct_index` is the index of the
*last* option (in 1st→4th order) whose stripped text contains the marker —
the loop at lines 87-92 overwrites `correct_index` on every marked option,
so later markers win, not earlier ones. -/
theorem processQuestion_last_marker_wins (num qt a b c d : Str)
    (h : (hasMarker (pyStrip a) || hasMarker (pyStrip b) || hasMarker (pyStrip c) ||
      hasMarker (pyStrip d)) = true) :
    (processQuestion [num, qt, a, b, c, d]).map (fun q => q.correct_index) =
      some (if hasMarker (pyStrip d) then 3 else if hasMarker (pyStrip c) then 2
        else if hasMarker (pyStrip b) then 1 else 0) := by
  rw [processQuestion_eq]
  cases ha : hasMarker (pyStrip a) <;> cases hb : hasMarker (pyStrip b) <;>
    cases hc : hasMarker (pyStrip c) <;> cases hd : hasMarker (pyStrip d) <;>
    rw [ha, hb, hc, hd] at h <;>
    first
      | exact Bool.noConfusion h
      | simp [optionLoop, ha, hb, hc, hd]

set_option maxRecDepth 40000 in
theorem processQuestion_last_marker_wins_wit :
    (processQuestion [("1").data, ("كم؟").data, ("واحد (الإجابة الصحيحة)").data,
      ("اثنان (الإجابة الصحيحة)").data, ("ثلاثة").data, ("أربعة").data]).map
        (fun q => q.correct_index) =
      some (if hasMarker (pyStrip (("أربعة").data)) then 3
        else if hasMarker (pyStrip (("ثلاثة").data)) then 2
        else if hasMarker (pyStrip (("اثنان (الإجابة الصحيحة)").data)) then 1 else 0) :=
  processQuestion_last_marker_wins _ _ _ _ _ _ (by decide)

set_option maxRecDepth 100000 in
/-- C1 counterexample: the claim says the *lowest* marked index wins.  In the
block below the 1st and the 2nd options both carry the marker (so the lowest
marked index is 0), yet the emitted `correct_index` is 1, not 0 — both on the
isolated groups through `processQuestion` and through a full
`parse_question_bank` run on the corresponding input text. -/
theorem processQuestion_first_marker_cex :
    hasMarker (pyStrip (("واحد (الإجابة الصحيحة)").data)) = true ∧
    hasMarker (pyStrip (("اثنان (الإجابة الصحيحة)").data)) = true ∧
    (processQuestion [("1").data, ("كم؟").data, ("واحد (الإجابة الصحيحة)").data,
      ("اثنان (الإجابة الصحيحة)").data, ("ثلاثة").data, ("أربعة").data]).map
        (fun q => q.correct_index) = some 1 ∧
    (parse_question_bank cexTwoMarkers).map
      (fun tp => tp.questions.map (fun q => q.correct_index)) = [[1]] ∧
    ¬ (parse_question_bank cexTwoMarkers).map
      (fun tp => tp.questions.map (fun q => q.correct_index)) = [[0]] := by
  refine ⟨by decide, by decide, by decide, by decide, by decide⟩

set_option maxRecDepth 200000 in
/-- C2: parsing the sample question bank embedded in the program yields
exactly two topics: "الحركة الموجية" with two questions whose correct
indices are 1 and 0 in order of appearance, and "الضوء" with one question
whose correct index is 1. -/
theorem parse_sample_bank :
    (parse_question_bank (QUESTION_BANK.data)).map (fun tp => tp.topic) =
      [("الحركة الموجية").data, ("الضوء").data] ∧
    (parse_question_bank (QUESTION_BANK.data)).map
      (fun tp => tp.questions.map (fun q => q.correct_index)) = [[1, 0], [1]] := by
  refine ⟨by decide, by decide⟩

/-- C6: ordering is order of appearance.  Topics are the in-order
`filterMap` image of the header matches, whose start positions are strictly
increasing; within a topic, questions are the in-order `filterMap` image of
the question matches of its body, again at strictly increasing positions;
and the numeric label group captured by `(\d+)` is ignored by
`processQuestion`, so label values cannot influence the order. -/
theorem parse_order_of_appearance (text name content : Str) (tp : Topic)
    (num num' qt a b c d : Str)
    (htp : processTopic [name, content] = some tp) :
    (parseTopicsPos text).map Prod.snd = parse_question_bank text ∧
    ((parseTopicsPos text).map Prod.fst).Pairwise (· < ·) ∧
    (parseQuestionsPos content).map Prod.snd = tp.questions ∧
    ((parseQuestionsPos content).map Prod.fst).Pairwise (· < ·) ∧
    processQuestion [num, qt, a, b, c, d] = processQuestion [num', qt, a, b, c, d] := by
  refine ⟨?_, ?_, ?_, ?_, rfl⟩
  · unfold parseTopicsPos parse_question_bank
    exact filterMap_tag_snd processTopic _
  · unfold parseTopicsPos pyFindall
    exact List.Pairwise.sublist (filterMap_tag_fst_sublist processTopic _)
      (findFromAux_pos_sorted text (mfuel text) topicItems 0 0)
  · rw [processTopic_eq] at htp
    by_cases he :
        (((pyFindall questionItems content).map Prod.snd).filterMap processQuestion).isEmpty
    · rw [if_pos he] at htp
      exact Option.noConfusion htp
    · rw [if_neg he] at htp
      have h2 := Option.some.inj htp
      subst h2
      unfold parseQuestionsPos
      exact filterMap_tag_snd processQuestion _
  · unfold parseQuestionsPos pyFindall
    exact List.Pairwise.sublist (filterMap_tag_fst_sublist processQuestion _)
      (findFromAux_pos_sorted content (mfuel content) questionItems 0 0)

set_option maxRecDepth 100000 in
theorem parse_order_of_appearance_wit :
    ((parseTopicsPos cexTwoMarkers).map Prod.fst).Pairwise (· < ·) ∧
    (parseQuestionsPos
        (("\n1. السؤال: كم؟\n أ) واحد (الإجابة الصحيحة)\n ب) اثنان (الإجابة الصحيحة)\n ج) ثلاثة\n د) أربعة\n").data)).map
        Prod.snd =
      (⟨("س").data, [⟨("كم؟").data,
        [("واحد").data, ("اثنان").data, ("ثلاثة").data, ("أربعة").data], 1⟩]⟩ : Topic).questions :=
  ⟨(parse_order_of_appearance cexTwoMarkers (("س").data)
      (("\n1. السؤال: كم؟\n أ) واحد (الإجابة الصحيحة)\n ب) اثنان (الإجابة الصحيحة)\n ج) ثلاثة\n د) أربعة\n").data)
      ⟨("س").data, [⟨("كم؟").data,
        [("واحد").data, ("اثنان").data, ("ثلاثة").data, ("أربعة").data], 1⟩]⟩
      [] [] [] [] [] [] [] (by decide)).2.1,
   (parse_order_of_appearance cexTwoMarkers (("س").data)
      (("\n1. السؤال: كم؟\n أ) واحد (الإجابة الصحيحة)\n ب) اثنان (الإجابة الصحيحة)\n ج) ثلاثة\n د) أربعة\n").data)
      ⟨("س").data, [⟨("كم؟").data,
        [("واحد").data, ("اثنان").data, ("ثلاثة").data, ("أربعة").data], 1⟩]⟩
      [] [] [] [] [] [] [] (by decide)).2.2.1⟩

set_option maxRecDepth 100000 in
/-- C5 counterexample: the claim requires every output Topic to carry a
non-empty name and every Question a non-empty prompt.  The header
`**عنوان الموضوع:**` yields an empty captured title and the question line
`1. السؤال:` immediately followed by its option lines yields an empty
prompt; both inputs still produce output records, with empty name and empty
prompt respectively. -/
theorem parse_invariants_cex :
    (parse_question_bank cexEmptyName).map (fun tp => tp.topic) = [[]] ∧
    (parse_question_bank cexEmptyPrompt).map
      (fun tp => tp.questions.map (fun q => q.question)) = [[[]]] := by
  refine ⟨by decide, by decide⟩

/-- C5 (amended): every Topic record in the parser's output has a
whitespace-trimmed (but possibly empty) name, and every Question record in
it has a whitespace-trimmed (possibly empty) prompt, exactly 4 option
strings, and a correct_index in the range [0,3]. -/
theorem parse_output_invariants (text : Str) (tp : Topic) (q : Question)
    (htp : tp ∈ parse_question_bank text) :
    pyStrip tp.topic = tp.topic ∧
    (q ∈ tp.questions →
      pyStrip q.question = q.question ∧ q.options.length = 4 ∧ q.correct_index < 4) := by
  unfold parse_question_bank at htp
  rcases List.mem_filterMap.mp htp with ⟨gs, -, hgs⟩
  rcases processTopic_shape gs tp hgs with ⟨nm, ct, rfl⟩
  rw [processTopic_eq] at hgs
  by_cases he : (((pyFindall questionItems ct).map Prod.snd).filterMap processQuestion).isEmpty
  · rw [if_pos he] at hgs
    exact Option.noConfusion hgs
  · rw [if_neg he] at hgs
    have h2 := Option.some.inj hgs
    subst h2
    constructor
    · exact pyStrip_idem nm
    · intro hq
      rcases List.mem_filterMap.mp hq with ⟨qgs, -, hqgs⟩
      rcases processQuestion_shape qgs q hqgs with ⟨num, qt, a, b, c, d, rfl⟩
      obtain ⟨hq1, hq2, hq3⟩ := processQuestion_fields num qt a b c d q hqgs
      refine ⟨?_, ?_, ?_⟩
      · rw [hq1]
        exact pyStrip_idem qt
      · rw [hq2, optionLoop_fst_length]
        rfl
      · have hlt := optionLoop_idx_lt [a, b, c, d] 0 [] none q.correct_index
          (fun j' hj' => Option.noConfusion hj') hq3
        simpa using hlt

set_option maxRecDepth 100000 in
theorem parse_output_invariants_wit :
    pyStrip (⟨("س").data, [⟨("كم؟").data,
        [("واحد").data, ("اثنان").data, ("ثلاثة").data, ("أربعة").data], 1⟩]⟩ : Topic).topic =
      (⟨("س").data, [⟨("كم؟").data,
        [("واحد").data, ("اثنان").data, ("ثلاثة").data, ("أربعة").data], 1⟩]⟩ : Topic).topic ∧
    ((⟨("كم؟").data, [("واحد").data, ("اثنان").data, ("ثلاثة").data, ("أربعة").data], 1⟩ :
        Question) ∈
      (⟨("س").data, [⟨("كم؟").data,
        [("واحد").data, ("اثنان").data, ("ثلاثة").data, ("أربعة").data], 1⟩]⟩ : Topic).questions →
      pyStrip (("كم؟").data) = ("كم؟").data ∧
      ([("واحد").data, ("اثنان").data, ("ثلاثة").data, ("أربعة").data] : List Str).length = 4 ∧
      (1 : Nat) < 4) :=
  parse_output_invariants cexTwoMarkers _ _ (by decide)

/-- C10: marker detection and marker stripping use different criteria.  When
the 2nd option's stripped text contains the marker substring but the option
contains no parenthesis at all (and no other option is marked), the question
is still emitted with `correct_index = 1`, yet the stored option text is just
the stripped option, marker included: `re.sub` removes only parenthesized
segments containing `الإجابة`, and with no `(` present it removes nothing. -/
theorem processQuestion_marker_not_stripped (num qt a b c d : Str)
    (ha : hasMarker (pyStrip a) = false) (hb : hasMarker (pyStrip b) = true)
    (hc : hasMarker (pyStrip c) = false) (hd : hasMarker (pyStrip d) = false)
    (hpar : ('(' : Char) ∉ b) :
    processQuestion [num, qt, a, b, c, d] =
      some ⟨pyStrip qt, [pyStrip a, pyStrip b, pyStrip c, pyStrip d], 1⟩ ∧
    hasMarker (pyStrip b) = true := by
  have hpar' : ('(' : Char) ∉ pyStrip b := fun hm => hpar (mem_of_mem_pyStrip b _ hm)
  have hsub : pySub (pyStrip b) = pyStrip b := pySubAux_id _ hpar'
  refine ⟨?_, hb⟩
  rw [processQuestion_eq]
  simp [optionLoop, ha, hb, hc, hd, hsub, pyStrip_idem]

theorem processQuestion_marker_not_stripped_wit :
    processQuestion [("1").data, ("كم؟").data, ("واحد").data,
      ("اثنان الإجابة الصحيحة").data, ("ثلاثة").data, ("أربعة").data] =
      some ⟨pyStrip (("كم؟").data),
        [pyStrip (("واحد").data), pyStrip (("اثنان الإجابة الصحيحة").data),
         pyStrip (("ثلاثة").data), pyStrip (("أربعة").data)], 1⟩ ∧
    hasMarker (pyStrip (("اثنان الإجابة الصحيحة").data)) = true :=
  processQuestion_marker_not_stripped _ _ _ _ _ _
    (by decide) (by decide) (by decide) (by decide) (by decide)

/-- C4: for a well-formed question block whose 2nd option is a trimmed,
nonempty, parenthesis-free and marker-free text `t` followed by the
bracketed marker tag ` (الإجابة الصحيحة)`, and whose other options carry no
marker, the emitted question has `correct_index = 1`, the stored 2nd option
text is exactly `t` — the marker and its enclosing bracket are stripped, so
the stored text no longer contains the marker substring — and all four
stored option texts are whitespace-trimmed. -/
theorem processQuestion_marker_stripped (num qt a c d t : Str)
    (ha : hasMarker (pyStrip a) = false) (hc : hasMarker (pyStrip c) = false)
    (hd : hasMarker (pyStrip d) = false)
    (ht : pyStrip t = t) (htne : t ≠ []) (hpar : ('(' : Char) ∉ t)
    (hmt : hasMarker t = false) :
    processQuestion [num, qt, a, t ++ markerParen, c, d] =
      some ⟨pyStrip qt, [pyStrip a, t, pyStrip c, pyStrip d], 1⟩ ∧
    hasMarker t = false ∧
    ∀ o ∈ [pyStrip a, t, pyStrip c, pyStrip d], pyStrip o = o := by
  have hhead : ∀ ch, t.head? = some ch → pySpace ch = false :=
    head_not_of_dropWhile_fix pySpace t (pyStrip_fix_dropWhile t ht)
  have hrev : ∀ ch, t.reverse.head? = some ch → pySpace ch = false :=
    head_not_of_dropWhile_fix pySpace t.reverse (pyStrip_fix_rev t ht)
  have hstrip : pyStrip (t ++ markerParen) = t ++ markerParen := by
    apply pyStrip_eq_self
    · intro ch hch
      rw [head?_append_left t markerParen htne] at hch
      exact hhead ch hch
    · intro ch hch
      rw [List.reverse_append, head?_append_left _ _ (by decide)] at hch
      have : ch = ')' := by
        have : markerParen.reverse.head? = some ')' := by decide
        rw [this] at hch
        exact (Option.some.inj hch).symm
      rw [this]
      decide
  have hmb : hasMarker (t ++ markerParen) = true := by
    have := containsSub_append markerStr markerParen t [] (by decide)
    simpa using this
  have hsub : pySub (t ++ markerParen) = t := pySubAux_strip_tag t hpar hrev
  refine ⟨?_, hmt, ?_⟩
  · rw [processQuestion_eq]
    simp [optionLoop, ha, hc, hd, hmb, hstrip, hsub, ht, pyStrip_idem]
  · intro o ho
    simp only [List.mem_cons, List.not_mem_nil, or_false] at ho
    rcases ho with rfl | rfl | rfl | rfl
    · exact pyStrip_idem a
    · exact ht
    · exact pyStrip_idem c
    · exact pyStrip_idem d

theorem processQuestion_marker_stripped_wit :
    processQuestion [("1").data, ("كم؟").data, ("انعكاس").data,
      ("انكسار").data ++ markerParen, ("حيود").data, ("تداخل").data] =
      some ⟨pyStrip (("كم؟").data),
        [pyStrip (("انعكاس").data), ("انكسار").data,
         pyStrip (("حيود").data), pyStrip (("تداخل").data)], 1⟩ ∧
    hasMarker (("انكسار").data) = false ∧
    ∀ o ∈ [pyStrip (("انعكاس").data), ("انكسار").data,
        pyStrip (("حيود").data), pyStrip (("تداخل").data)], pyStrip o = o :=
  processQuestion_marker_stripped _ _ _ _ _ _
    (by decide) (by decide) (by decide) (by decide) (by decide) (by decide) (by decide)
